import Mathlib

/-!
# Verification of the pakman package-lifecycle manager

A shallow embedding of the Go sources of `WithoutPants/pakman`:

* the data model (`Spec`, `Manifest`, `InstallSpec`, `UpgradableSpec`) from
  `pkg/pak/spec.go`;
* the local writable store with the file-system adapter's semantics
  (`pkg/repository/fs`): files live under the key `(id, file)` — `Write`
  ignores the version in the path — and `Delete` removes exactly the files
  listed by the installed manifest, failing if one of them is absent;
* the source repository as a read-only snapshot (index, manifests, files);
* the `Manager` orchestration (`Install`, `Uninstall`, `Upgrade`,
  `Upgradable`) from `pkg/pak`, instrumented with an event trace that
  records each repository-interface call;
* the TTL index cache of the HTTP adapter (`pkg/repository/http`);
* the CLI sorting/search helpers from `cmd/pakman/pakman.go` (case folding
  is modelled at ASCII granularity, matching the identifiers involved).

Timestamps are modelled as natural numbers and file contents as lists of
bytes; Go's `nil` results become `Option`, Go errors become an explicit
`PakError` type, and a reachable nil-pointer dereference (a Go panic) is
modelled by the dedicated outcome `PakError.nilDereference`.
-/

namespace Pakman

/-! ## Association-list finite maps -/

/-- Lookup in an association list (first match wins). -/
def alookup {α β : Type} [DecidableEq α] (k : α) : List (α × β) → Option β
  | [] => none
  | (k', v) :: rest => if k = k' then some v else alookup k rest

/-- Insert or replace the binding for a key. -/
def aset {α β : Type} [DecidableEq α] (k : α) (v : β) : List (α × β) → List (α × β)
  | [] => [(k, v)]
  | (k', v') :: rest => if k = k' then (k, v) :: rest else (k', v') :: aset k v rest

/-- Remove every binding for a key. -/
def aremove {α β : Type} [DecidableEq α] (k : α) : List (α × β) → List (α × β)
  | [] => []
  | (k', v') :: rest => if k = k' then aremove k rest else (k', v') :: aremove k rest

theorem alookup_aset {α β : Type} [DecidableEq α] (k k' : α) (v : β) (l : List (α × β)) :
    alookup k (aset k' v l) = if k = k' then some v else alookup k l := by
  induction l with
  | nil => by_cases h : k = k' <;> simp [aset, alookup, h]
  | cons p rest ih =>
    obtain ⟨k₀, v₀⟩ := p
    by_cases h0 : k' = k₀
    · subst h0
      by_cases h : k = k' <;> simp [aset, alookup, h]
    · by_cases h : k = k₀
      · subst h
        have h1 : ¬k = k' := fun hh => h0 hh.symm
        simp [aset, alookup, h0, h1]
      · simp [aset, alookup, h0, h, ih]

theorem alookup_aremove {α β : Type} [DecidableEq α] (k k' : α) (l : List (α × β)) :
    alookup k (aremove k' l) = if k = k' then none else alookup k l := by
  induction l with
  | nil => simp [aremove, alookup]
  | cons p rest ih =>
    obtain ⟨k₀, v₀⟩ := p
    by_cases h0 : k' = k₀
    · subst h0
      by_cases h : k = k'
      · subst h; simp [aremove, alookup, ih]
      · simp [aremove, alookup, h, ih]
    · by_cases h : k = k₀
      · subst h
        have h1 : ¬k = k' := fun hh => h0 hh.symm
        simp [aremove, alookup, h0, ih, h1]
      · simp [aremove, alookup, h0, h, ih]

/-! ## Data model (`pkg/pak/spec.go`) -/

/-- A catalog entry (`pak.Spec`). -/
structure Spec where
  id : String
  name : String
  description : String
  currentVersion : String
  updated : Nat
  versions : List String
deriving DecidableEq, Repr

/-- An installed (or installable) package record (`pak.Manifest`). -/
structure Manifest where
  id : String
  name : String
  version : String
  date : Nat
  files : List String
deriving DecidableEq, Repr

/-- An install request (`pak.InstallSpec`); an empty version means latest. -/
structure InstallSpec where
  id : String
  version : String
deriving DecidableEq, Repr

/-- Derived upgrade candidate (`pak.UpgradableSpec`). -/
structure UpgradableSpec where
  spec : Spec
  latestVersion : String
  lastUpdated : Nat
deriving DecidableEq, Repr

/-- Go error values produced by the manager and the repositories; wrapping
constructors mirror the `fmt.Errorf("...: %w", err)` chains, and
`nilDereference` models a Go nil-pointer panic. -/
inductive PakError where
  | invalidInstallSpec
  | specNotFound
  | manifestNotFound (version : String)
  | gettingRemotePakFile (id version file : String)
  | removingFile (id file : String)
  | nilDereference
  | deletingLocalPak (e : PakError)
  | uninstallingExisting (e : PakError)
  | downloadingFile (file : String) (e : PakError)
  | installingPak (id version : String) (e : PakError)
  | uninstallingPak (id : String) (e : PakError)
  | upgradingPak (id : String) (e : PakError)
deriving DecidableEq, Repr

/-- One repository-interface call, as observed at the `SourceRepository` /
`WritableRepository` boundary. -/
inductive Event where
  | getInstalledManifest (id : String)
  | getSpec (id : String)
  | getManifest (id version : String)
  | getFile (id version file : String)
  | write (id version file : String)
  | writeManifest (id : String)
  | delete (id : String)
deriving DecidableEq, Repr

/-- Whether an event is a query on the source repository. -/
def Event.isSourceQuery : Event → Bool
  | .getSpec _ => true
  | .getManifest _ _ => true
  | .getFile _ _ _ => true
  | _ => false

/-- Whether an event mutates the local store (write, write-manifest or delete). -/
def Event.isLocalMutation : Event → Bool
  | .write _ _ _ => true
  | .writeManifest _ => true
  | .delete _ => true
  | _ => false

/-- Whether an event is a `Write` of a file to the local store. -/
def Event.isWrite : Event → Bool
  | .write _ _ _ => true
  | _ => false

/-! ## The local store (file-system adapter semantics, `pkg/repository/fs`) -/

/-- The local writable store: one manifest per id, files keyed by
`(id, file)` since `fs.Repository.Write` stores at `<BaseDir>/<id>/<file>`,
ignoring the version. -/
structure LocalState where
  manifests : List (String × Manifest)
  files : List ((String × String) × List Nat)
deriving DecidableEq, Repr

/-- `GetInstalledManifest`: the manifest stored for `id`, if any. -/
def LocalState.getInstalledManifest (st : LocalState) (id : String) : Option Manifest :=
  alookup id st.manifests

/-- Lookup of a stored file's bytes. -/
def LocalState.getFile (st : LocalState) (id file : String) : Option (List Nat) :=
  alookup (id, file) st.files

/-- `fs.Repository.Write`: store the bytes at `(id, file)`. -/
def LocalState.write (st : LocalState) (id file : String) (data : List Nat) : LocalState :=
  { st with files := aset (id, file) data st.files }

/-- `fs.Repository.WriteManifest`: store the manifest under `manifest.ID`. -/
def LocalState.writeManifest (st : LocalState) (m : Manifest) : LocalState :=
  { st with manifests := aset m.id m st.manifests }

/-- The file-removal loop of `fs.Repository.Delete`: remove each listed file
in order; `os.Remove` of an absent file fails, leaving the files removed so
far gone. -/
def deleteListedFiles (id : String) (st : LocalState) :
    List String → Except PakError Unit × LocalState
  | [] => (.ok (), st)
  | f :: rest =>
    if (alookup (id, f) st.files).isSome then
      deleteListedFiles id { st with files := aremove (id, f) st.files } rest
    else (.error (.removingFile id f), st)

/-- `fs.Repository.Delete`: a no-op if no manifest is installed for `id`,
otherwise remove exactly the files the manifest lists, then the manifest. -/
def LocalState.delete (st : LocalState) (id : String) : Except PakError Unit × LocalState :=
  match alookup id st.manifests with
  | none => (.ok (), st)
  | some m =>
    match deleteListedFiles id st m.files with
    | (.error e, st') => (.error e, st')
    | (.ok _, st') => (.ok (), { st' with manifests := aremove id st'.manifests })

/-! ## The source repository (read-only snapshot) -/

/-- A source repository snapshot: catalog index, per-(id, version) manifests
and per-(id, version, file) contents. `GetSpec` and `GetManifest` return
`none` for “not found”; an absent file makes `GetFile` fail (the fs/http
adapters' behaviour). -/
structure SourceRepo where
  index : List (String × Spec)
  manifests : List ((String × String) × Manifest)
  files : List ((String × String × String) × List Nat)
deriving DecidableEq, Repr

/-- `GetSpec`: catalog lookup, `none` when the id has no entry. -/
def SourceRepo.getSpec (src : SourceRepo) (id : String) : Option Spec :=
  alookup id src.index

/-- `GetManifest`: manifest lookup for an exact (id, version). -/
def SourceRepo.getManifest (src : SourceRepo) (id version : String) : Option Manifest :=
  alookup (id, version) src.manifests

/-- `GetFile`: file lookup; `none` stands for a retrieval error. -/
def SourceRepo.getFile (src : SourceRepo) (id version file : String) : Option (List Nat) :=
  alookup (id, version, file) src.files

/-! ## The Manager (`pkg/pak`, `Manager.install` and friends)

Each operation returns its Go result, the resulting local store, and the
trace of repository-interface calls it performed, in order. -/

deriving instance DecidableEq for Except

/-- Outcome of a manager operation: Go return value, resulting local store,
and the ordered trace of repository calls performed. -/
structure MResult where
  res : Except PakError Unit
  st : LocalState
  tr : List Event
deriving DecidableEq, Repr

/-- Prepend earlier events to a result's trace. -/
def MResult.withTrace (tr : List Event) (r : MResult) : MResult :=
  ⟨r.res, r.st, tr ++ r.tr⟩

/-- `Manager.uninstall`: delegate to the local store's `Delete`, wrapping a
failure as "deleting local pak". -/
def uninstallOne (st : LocalState) (id : String) : MResult :=
  match st.delete id with
  | (.error e, st') => ⟨.error (.deletingLocalPak e), st', [.delete id]⟩
  | (.ok _, st') => ⟨.ok (), st', [.delete id]⟩

/-- `Manager.downloadFile`: fetch the file from the source and write it to
the local store; an absent source file is a retrieval error (fs/http
adapter behaviour) wrapped as "getting remote pak file". -/
def downloadFile (src : SourceRepo) (st : LocalState) (id version file : String) : MResult :=
  match src.getFile id version file with
  | none => ⟨.error (.gettingRemotePakFile id version file), st, [.getFile id version file]⟩
  | some data =>
    ⟨.ok (), st.write id file data, [.getFile id version file, .write id version file]⟩

/-- The download loop of `Manager.install` (step 7): fetch and write each
manifest file in order, stopping at the first failure, which is wrapped as
"downloading file". -/
def downloadFiles (src : SourceRepo) (st : LocalState) (id version : String) :
    List String → MResult
  | [] => ⟨.ok (), st, []⟩
  | f :: rest =>
    match downloadFile src st id version f with
    | ⟨.error e, st', tr⟩ => ⟨.error (.downloadingFile f e), st', tr⟩
    | ⟨.ok _, st', tr⟩ => MResult.withTrace tr (downloadFiles src st' id version rest)

/-- Steps 5–8 of `Manager.install`, after the no-op check: the
upgrade-flag log line (which dereferences `existing`, a nil pointer when
nothing is installed), manifest fetch, uninstall of the existing version,
file downloads, and the final manifest write. -/
def installAfterNoop (src : SourceRepo) (st : LocalState) (id version : String)
    (existing : Option Manifest) (upgrade : Bool) : MResult :=
  if upgrade ∧ existing = none then ⟨.error .nilDereference, st, []⟩
  else
    match src.getManifest id version with
    | none => ⟨.error (.manifestNotFound version), st, [.getManifest id version]⟩
    | some manifest =>
      let afterDelete : MResult :=
        match existing with
        | none => ⟨.ok (), st, []⟩
        | some _ =>
          match uninstallOne st id with
          | ⟨.error e, st', tr⟩ => ⟨.error (.uninstallingExisting e), st', tr⟩
          | ⟨.ok _, st', tr⟩ => ⟨.ok (), st', tr⟩
      match afterDelete with
      | ⟨.error e, st', tr⟩ => ⟨.error e, st', [Event.getManifest id version] ++ tr⟩
      | ⟨.ok _, st', tr⟩ =>
        match downloadFiles src st' id version manifest.files with
        | ⟨.error e, st'', tr'⟩ =>
          ⟨.error e, st'', [Event.getManifest id version] ++ tr ++ tr'⟩
        | ⟨.ok _, st'', tr'⟩ =>
          ⟨.ok (), st''.writeManifest manifest,
            [Event.getManifest id version] ++ tr ++ tr' ++ [Event.writeManifest manifest.id]⟩

/-- Step 4 of `Manager.install`: the no-op check against the already
installed version, performed after resolution. -/
def installResolved (src : SourceRepo) (st : LocalState) (id version : String)
    (existing : Option Manifest) (upgrade : Bool) : MResult :=
  match existing with
  | some ex =>
    if ex.version = version then ⟨.ok (), st, []⟩
    else installAfterNoop src st id version existing upgrade
  | none => installAfterNoop src st id version existing upgrade

/-- `Manager.install`: the per-spec routine — reject an empty id, read the
installed manifest, resolve an empty version via the source's `GetSpec`,
then run the no-op check and the replace sequence. -/
def installOne (src : SourceRepo) (st : LocalState) (toInstall : InstallSpec)
    (upgrade : Bool) : MResult :=
  if toInstall.id = "" then ⟨.error .invalidInstallSpec, st, []⟩
  else
    let existing := st.getInstalledManifest toInstall.id
    if toInstall.version = "" then
      match src.getSpec toInstall.id with
      | none =>
        ⟨.error .specNotFound, st,
          [.getInstalledManifest toInstall.id, .getSpec toInstall.id]⟩
      | some spec =>
        MResult.withTrace [.getInstalledManifest toInstall.id, .getSpec toInstall.id]
          (installResolved src st toInstall.id spec.currentVersion existing upgrade)
    else
      MResult.withTrace [.getInstalledManifest toInstall.id]
        (installResolved src st toInstall.id toInstall.version existing upgrade)

/-- `Manager.Install`: process the specs sequentially with the upgrade flag
clear; the first failure aborts the batch, wrapped as
"installing pak id@version" with the spec's requested id and version. -/
def installAll (src : SourceRepo) (st : LocalState) : List InstallSpec → MResult
  | [] => ⟨.ok (), st, []⟩
  | s :: rest =>
    match installOne src st s false with
    | ⟨.error e, st', tr⟩ => ⟨.error (.installingPak s.id s.version e), st', tr⟩
    | ⟨.ok _, st', tr⟩ => MResult.withTrace tr (installAll src st' rest)

/-- `Manager.Uninstall`: uninstall each id sequentially; the first failure
aborts, wrapped as "uninstalling pak id". -/
def uninstallAll (st : LocalState) : List String → MResult
  | [] => ⟨.ok (), st, []⟩
  | id :: rest =>
    match uninstallOne st id with
    | ⟨.error e, st', tr⟩ => ⟨.error (.uninstallingPak id e), st', tr⟩
    | ⟨.ok _, st', tr⟩ => MResult.withTrace tr (uninstallAll st' rest)

/-- `ListInstalled` for the modelled local store: the stored manifests, in
store order. -/
def listInstalled (st : LocalState) : List Manifest :=
  st.manifests.map Prod.snd

/-- The loop of `Manager.Upgrade`: each spec runs through `install` with
the upgrade flag set; failures are wrapped as "upgrading pak id". -/
def upgradeSpecs (src : SourceRepo) (st : LocalState) : List InstallSpec → MResult
  | [] => ⟨.ok (), st, []⟩
  | s :: rest =>
    match installOne src st s true with
    | ⟨.error e, st', tr⟩ => ⟨.error (.upgradingPak s.id e), st', tr⟩
    | ⟨.ok _, st', tr⟩ => MResult.withTrace tr (upgradeSpecs src st' rest)

/-- `Manager.Upgrade`: an empty spec list expands to all installed ids with
empty versions (forcing re-resolution to latest). -/
def upgrade (src : SourceRepo) (st : LocalState) (specs : List InstallSpec) : MResult :=
  if specs = [] then
    upgradeSpecs src st ((listInstalled st).map fun m => ⟨m.id, ""⟩)
  else upgradeSpecs src st specs

/-- The `UpgradableSpec` built by `Manager.Upgradable` for one installed
manifest: installed identity, version and date combined with the source's
latest version and updated timestamp (name and versions are left at their
Go zero values). -/
def mkUpgradable (m : Manifest) (spec : Spec) : UpgradableSpec :=
  { spec :=
      { id := m.id
        name := ""
        description := spec.description
        currentVersion := m.version
        updated := m.date
        versions := [] }
    latestVersion := spec.currentVersion
    lastUpdated := spec.updated }

/-- The loop of `Manager.Upgradable`: for each installed manifest, query the
source's spec and compare versions. The Go code dereferences the returned
spec without a nil check, so an installed id absent from the source catalog
is a nil-pointer panic, modelled as `nilDereference`. -/
def upgradableLoop (src : SourceRepo) : List Manifest → Except PakError (List UpgradableSpec)
  | [] => .ok []
  | m :: rest =>
    match src.getSpec m.id with
    | none => .error .nilDereference
    | some spec =>
      match upgradableLoop src rest with
      | .error e => .error e
      | .ok tail =>
        if spec.currentVersion ≠ m.version then .ok (mkUpgradable m spec :: tail)
        else .ok tail

/-- `Manager.Upgradable`: run the comparison loop over the installed list. -/
def upgradable (src : SourceRepo) (st : LocalState) : Except PakError (List UpgradableSpec) :=
  upgradableLoop src (listInstalled st)

/-! ## The TTL index cache of the HTTP adapter (`pkg/repository/http`) -/

/-- The mutable cache fields of `http.Repository`: the cached index
snapshot and the time it was fetched. -/
structure CacheState where
  cachedIndex : Option (List (String × Spec))
  cacheTime : Nat
deriving DecidableEq, Repr

/-- `Repository.checkCacheExpired`: drop the cached snapshot when it is
older than the TTL (`time.Since(cacheTime) > CacheTTL`). -/
def checkCacheExpired (ttl now : Nat) (st : CacheState) : CacheState :=
  match st.cachedIndex with
  | none => st
  | some _ => if now - st.cacheTime > ttl then { st with cachedIndex := none } else st

/-- `Repository.getIndex`: after the expiry check, serve a surviving
snapshot without fetching; otherwise perform the fetch (its outcome is the
`fetch` argument), store a successful result with the current time, and
serve it. The third component records whether a fetch was performed. -/
def getIndex (ttl : Nat) (fetch : Except String (List (String × Spec))) (now : Nat)
    (st : CacheState) : Except String (List (String × Spec)) × CacheState × Bool :=
  let st1 := checkCacheExpired ttl now st
  match st1.cachedIndex with
  | some idx => (.ok idx, st1, false)
  | none =>
    match fetch with
    | .error e => (.error e, st1, true)
    | .ok idx => (.ok idx, { cachedIndex := some idx, cacheTime := now }, true)

/-! ## CLI listing and search helpers (`cmd/pakman/pakman.go`) -/

/-- Go's byte-wise string comparison `a < b`, on the character lists
(UTF-8 byte order coincides with code-point order). -/
def charListLt : List Char → List Char → Bool
  | [], [] => false
  | [], _ :: _ => true
  | _ :: _, [] => false
  | a :: as, b :: bs => if a < b then true else if b < a then false else charListLt as bs

/-- `strings.ToLower`, modelled character-wise with ASCII folding
(`Char.toLower`), matching the identifiers involved. -/
def lowerStr (s : String) : String :=
  ⟨s.data.map Char.toLower⟩

/-- The comparator of `sortedKeys`: `strings.EqualFold` ties are broken by
the raw byte order, otherwise compare the lowercased keys. -/
def goLess (a b : String) : Bool :=
  if lowerStr a = lowerStr b then charListLt a.data b.data
  else charListLt (lowerStr a).data (lowerStr b).data

/-- Insert a key into an already sorted list, before the first element that
`goLess`-follows it. -/
def insertSorted (x : String) : List String → List String
  | [] => [x]
  | y :: ys => if goLess x y then x :: y :: ys else y :: insertSorted x ys

/-- `sortedKeys`: the keys sorted by the `goLess` comparator (the result of
Go's `sort.Slice`, which is unique here because `goLess` is a strict total
order on distinct keys). -/
def sortedKeys (keys : List String) : List String :=
  keys.foldr insertSorted []

/-- Substring containment on character lists (`strings.Contains`): the
needle is a prefix of some suffix of the haystack. -/
def hasInfix (needle : List Char) : List Char → Bool
  | [] => needle.isEmpty
  | c :: rest => needle.isPrefixOf (c :: rest) || hasInfix needle rest

/-- The case-insensitive substring test of `search`:
`strings.Contains(strings.ToLower(k), strings.ToLower(query))`. -/
def containsFold (k q : String) : Bool :=
  hasInfix (lowerStr q).data (lowerStr k).data

/-- The selection performed by `search`: walk the sorted keys and keep those
containing the query as a case-insensitive substring. -/
def searchKeys (q : String) (keys : List String) : List String :=
  (sortedKeys keys).filter fun k => containsFold k q

/-! ## Lemmas about the local store and the manager -/

theorem alookup_isSome_iff {α β : Type} [DecidableEq α] (k : α) (l : List (α × β)) :
    (alookup k l).isSome ↔ ∃ v, (k, v) ∈ l := by
  induction l with
  | nil => simp [alookup]
  | cons p rest ih =>
    obtain ⟨k₀, v₀⟩ := p
    by_cases h : k = k₀
    · subst h; simp [alookup]
    · simp only [alookup, if_neg h, ih]
      constructor
      · rintro ⟨v, hv⟩; exact ⟨v, by simp [hv]⟩
      · rintro ⟨v, hv⟩
        rcases List.mem_cons.mp hv with h1 | h1
        · exact absurd (congrArg Prod.fst h1) h
        · exact ⟨v, h1⟩

/-- Successful run of the file-removal loop of `Delete`: with distinct file
names that are all present, it removes exactly the listed files for `id`
and touches nothing else. -/
theorem deleteListedFiles_ok (id : String) (fl : List String) :
    ∀ st : LocalState, fl.Nodup → (∀ f ∈ fl, (alookup (id, f) st.files).isSome) →
    ∃ st', deleteListedFiles id st fl = (.ok (), st') ∧
      st'.manifests = st.manifests ∧
      ∀ i f', alookup (i, f') st'.files =
        if i = id ∧ f' ∈ fl then none else alookup (i, f') st.files := by
  induction fl with
  | nil =>
    intro st _ _
    exact ⟨st, rfl, rfl, by intro i f'; simp⟩
  | cons f rest ih =>
    intro st hnd hall
    have hf : (alookup (id, f) st.files).isSome = true := hall f (by simp)
    have hnd' := List.nodup_cons.mp hnd
    have hall' : ∀ g ∈ rest,
        (alookup (id, g) (aremove (id, f) st.files)).isSome = true := by
      intro g hg
      have hne : (id, g) ≠ (id, f) := by
        intro h
        exact hnd'.1 (by cases h; exact hg)
      rw [alookup_aremove, if_neg hne]
      exact hall g (by simp [hg])
    obtain ⟨st', heq, hman, hfiles⟩ :=
      ih { st with files := aremove (id, f) st.files } hnd'.2 hall'
    refine ⟨st', ?_, ?_, ?_⟩
    · simp only [deleteListedFiles, hf, if_pos]
      exact heq
    · exact hman
    · intro i f'
      rw [hfiles i f']
      by_cases hi : i = id
      · subst hi
        by_cases h1 : f' ∈ rest
        · simp [h1]
        · by_cases h2 : f' = f
          · subst h2
            simp [h1, alookup_aremove]
          · have hne : (i, f') ≠ (i, f) := fun h => h2 (by cases h; rfl)
            simp [h1, h2, alookup_aremove, hne]
      · have hne : ∀ g : String, (i, f') ≠ (id, g) := by
          intro g h
          exact hi (congrArg Prod.fst h)
        simp [hi, alookup_aremove, hne f]

/-- Successful `fs.Repository.Delete` of an installed package. -/
theorem delete_ok (st : LocalState) (id : String) (m : Manifest)
    (hm : alookup id st.manifests = some m) (hnd : m.files.Nodup)
    (hall : ∀ f ∈ m.files, (alookup (id, f) st.files).isSome) :
    ∃ st', st.delete id = (.ok (), st') ∧
      alookup id st'.manifests = none ∧
      (∀ i, i ≠ id → alookup i st'.manifests = alookup i st.manifests) ∧
      ∀ i f', alookup (i, f') st'.files =
        if i = id ∧ f' ∈ m.files then none else alookup (i, f') st.files := by
  obtain ⟨st1, heq, hman, hfiles⟩ := deleteListedFiles_ok id m.files st hnd hall
  refine ⟨{ st1 with manifests := aremove id st1.manifests }, ?_, ?_, ?_, ?_⟩
  · simp only [LocalState.delete, hm, heq]
  · simp [alookup_aremove]
  · intro i hi
    simp [alookup_aremove, hi, hman]
  · exact hfiles

/-- `fs.Repository.Delete` of a package with no installed manifest is a
no-op success. -/
theorem delete_noop (st : LocalState) (id : String)
    (hm : alookup id st.manifests = none) :
    st.delete id = (.ok (), st) := by
  simp only [LocalState.delete, hm]

/-- Successful run of the download loop: all listed source files present
means every file is fetched and written; manifests are untouched and the
store's file keys gain exactly `(id, f)` for listed `f`. -/
theorem downloadFiles_ok (src : SourceRepo) (id version : String) (fl : List String) :
    ∀ st : LocalState, (∀ f ∈ fl, (src.getFile id version f).isSome) →
    ∃ st' tr, downloadFiles src st id version fl = ⟨.ok (), st', tr⟩ ∧
      st'.manifests = st.manifests ∧
      ∀ i f', (alookup (i, f') st'.files).isSome ↔
        (i = id ∧ f' ∈ fl) ∨ (alookup (i, f') st.files).isSome := by
  induction fl with
  | nil =>
    intro st _
    exact ⟨st, [], rfl, rfl, by intro i f'; simp⟩
  | cons f rest ih =>
    intro st hall
    obtain ⟨data, hdata⟩ := Option.isSome_iff_exists.mp (hall f (by simp))
    have hall' : ∀ g ∈ rest, (src.getFile id version g).isSome := by
      intro g hg; exact hall g (by simp [hg])
    obtain ⟨st', tr, heq, hman, hfiles⟩ := ih (st.write id f data) hall'
    refine ⟨st', [.getFile id version f, .write id version f] ++ tr, ?_, ?_, ?_⟩
    · simp only [downloadFiles, downloadFile, hdata, heq, MResult.withTrace]
    · exact hman
    · intro i f'
      rw [hfiles i f']
      by_cases hi : i = id
      · subst hi
        by_cases h1 : f' = f
        · subst h1
          simp [LocalState.write, alookup_aset]
        · have hne : (i, f') ≠ (i, f) := fun h => h1 (by cases h; rfl)
          simp [LocalState.write, alookup_aset, hne, h1]
      · have hne : (i, f') ≠ (id, f) := fun h => hi (congrArg Prod.fst h)
        simp [LocalState.write, alookup_aset, hne, hi]

/-! ## Concrete repositories used to instantiate the theorems -/

/-- Version 1.0 manifest of the example package "foo". -/
def fooV1 : Manifest := ⟨"foo", "Foo", "1.0", 5, ["a.txt"]⟩

/-- Catalog entry of "foo", whose current version is 2.0. -/
def fooSpec : Spec := ⟨"foo", "Foo", "demo", "2.0", 7, ["1.0", "2.0"]⟩

/-- Version 2.0 manifest of "foo", with a different file set. -/
def fooV2 : Manifest := ⟨"foo", "Foo", "2.0", 7, ["b.txt"]⟩

/-- An example source repository serving "foo" at versions 1.0 and 2.0. -/
def srcFoo : SourceRepo :=
  ⟨[("foo", fooSpec)],
   [(("foo", "1.0"), fooV1), (("foo", "2.0"), fooV2)],
   [(("foo", "1.0", "a.txt"), [9]), (("foo", "2.0", "b.txt"), [1, 2, 3])]⟩

/-- A local store with "foo" installed at version 1.0. -/
def stFoo : LocalState := ⟨[("foo", fooV1)], [(("foo", "a.txt"), [9])]⟩

/-- An empty local store. -/
def stEmpty : LocalState := ⟨[], []⟩

/-- A local store with "foo" installed at version 2.0 (the source's
current version). -/
def stFooV2 : LocalState := ⟨[("foo", fooV2)], [(("foo", "b.txt"), [1, 2, 3])]⟩

/-- A local store holding an installed package whose id the source catalog
does not know. -/
def stGone : LocalState := ⟨[("gone", ⟨"gone", "", "1.0", 0, []⟩)], []⟩

/-! ## Claim theorems -/

/-- C1: for a local store with `id` installed at version `v1 = m1.version`
and a source manifest `m2` for `(id, v2)`, `v1 ≠ v2`, a successful install
of `(id, v2)` leaves exactly `m2`'s file set as the files of `id` (none of
`v1`'s exclusive files remain), installs `m2` as the manifest of `id`, and
issues the `Delete` of the old version before any `Write` of a new file. -/
theorem install_replace_semantics
    (src : SourceRepo) (st : LocalState) (id v2 : String) (m1 m2 : Manifest)
    (hid : id ≠ "") (hv2 : v2 ≠ "")
    (hm1 : alookup id st.manifests = some m1)
    (hne : m1.version ≠ v2)
    (hm2 : src.getManifest id v2 = some m2)
    (hm2id : m2.id = id)
    (hnd : m1.files.Nodup)
    (hpresent : ∀ f ∈ m1.files, (alookup (id, f) st.files).isSome)
    (hexact : ∀ p ∈ st.files, p.1.1 = id → p.1.2 ∈ m1.files)
    (hsrc : ∀ f ∈ m2.files, (src.getFile id v2 f).isSome) :
    (installOne src st ⟨id, v2⟩ false).res = .ok () ∧
    alookup id (installOne src st ⟨id, v2⟩ false).st.manifests = some m2 ∧
    (∀ f, (alookup (id, f) (installOne src st ⟨id, v2⟩ false).st.files).isSome ↔
      f ∈ m2.files) ∧
    ∃ pre post, (installOne src st ⟨id, v2⟩ false).tr = pre ++ Event.delete id :: post ∧
      ∀ e ∈ pre, e.isWrite = false := by
  obtain ⟨st1, hdel, hdelid, hdelother, hdelfiles⟩ := delete_ok st id m1 hm1 hnd hpresent
  obtain ⟨st2, tr2, hdl, hdlman, hdlfiles⟩ := downloadFiles_ok src id v2 m2.files st1 hsrc
  have hgim : st.getInstalledManifest id = some m1 := hm1
  have hr : installOne src st ⟨id, v2⟩ false =
      ⟨.ok (), st2.writeManifest m2,
        [Event.getInstalledManifest id] ++
          ([Event.getManifest id v2] ++ [Event.delete id] ++ tr2 ++
            [Event.writeManifest m2.id])⟩ := by
    simp only [installOne, hid, hv2, if_neg, if_false, hgim]
    simp only [installResolved, if_neg hne, installAfterNoop, hm2, uninstallOne, hdel, hdl,
      MResult.withTrace]
    simp
  have hst1files : ∀ f, alookup (id, f) st1.files = none := by
    intro f
    rw [hdelfiles id f]
    by_cases hin : f ∈ m1.files
    · simp [hin]
    · simp only [hin, and_false, if_false]
      rw [← Option.not_isSome_iff_eq_none]
      intro hsome
      obtain ⟨v, hv⟩ := (alookup_isSome_iff _ _).mp hsome
      exact hin (hexact ((id, f), v) hv rfl)
  refine ⟨?_, ?_, ?_, ?_⟩
  · rw [hr]
  · rw [hr]
    simp [LocalState.writeManifest, hm2id, alookup_aset]
  · intro f
    rw [hr]
    simp only [LocalState.writeManifest]
    rw [hdlfiles id f, hst1files f]
    simp
  · refine ⟨[Event.getInstalledManifest id, Event.getManifest id v2],
      tr2 ++ [Event.writeManifest m2.id], ?_, ?_⟩
    · rw [hr]
      simp
    · intro e he
      rcases List.mem_cons.mp he with h | h
      · subst h; rfl
      · rcases List.mem_cons.mp h with h1 | h1
        · subst h1; rfl
        · simp at h1

/-- Closed instance of C1: installing foo@2.0 over installed foo@1.0. -/
theorem install_replace_semantics_witness :
    (installOne srcFoo stFoo ⟨"foo", "2.0"⟩ false).res = .ok () ∧
    alookup "foo" (installOne srcFoo stFoo ⟨"foo", "2.0"⟩ false).st.manifests = some fooV2 ∧
    (∀ f, (alookup ("foo", f) (installOne srcFoo stFoo ⟨"foo", "2.0"⟩ false).st.files).isSome ↔
      f ∈ fooV2.files) ∧
    ∃ pre post,
      (installOne srcFoo stFoo ⟨"foo", "2.0"⟩ false).tr = pre ++ Event.delete "foo" :: post ∧
      ∀ e ∈ pre, e.isWrite = false :=
  install_replace_semantics srcFoo stFoo "foo" "2.0" fooV1 fooV2
    (by decide) (by decide) (by decide) (by decide) (by decide) (by decide)
    (by decide) (by decide) (by decide) (by decide)

/-- C2: with `id` installed at version `v`, installing `(id, v)` with the
version given explicitly is a no-op success — the only repository call is
the initial installed-manifest read, so there is no source query and no
local write or delete, and the store is unchanged; with an empty requested
version the no-op check runs after resolution, so installing latest on an
already-latest package is likewise a no-op success (its only source query
is the resolving `GetSpec`). -/
theorem install_same_version_noop
    (src : SourceRepo) (st : LocalState) (id v : String) (m : Manifest)
    (hid : id ≠ "")
    (hm : alookup id st.manifests = some m)
    (hv : m.version = v) :
    (v ≠ "" →
      installOne src st ⟨id, v⟩ false = ⟨.ok (), st, [Event.getInstalledManifest id]⟩ ∧
      ∀ e ∈ (installOne src st ⟨id, v⟩ false).tr,
        e.isSourceQuery = false ∧ e.isLocalMutation = false) ∧
    (∀ spec, src.getSpec id = some spec → spec.currentVersion = v →
      installOne src st ⟨id, ""⟩ false =
        ⟨.ok (), st, [Event.getInstalledManifest id, Event.getSpec id]⟩ ∧
      ∀ e ∈ (installOne src st ⟨id, ""⟩ false).tr, e.isLocalMutation = false) := by
  have hgim : st.getInstalledManifest id = some m := hm
  constructor
  · intro hvne
    have heq : installOne src st ⟨id, v⟩ false =
        ⟨.ok (), st, [Event.getInstalledManifest id]⟩ := by
      simp only [installOne, hid, hvne, if_neg, if_false, hgim]
      simp only [installResolved, hv, if_pos rfl, MResult.withTrace]
      simp
    refine ⟨heq, ?_⟩
    rw [heq]
    intro e he
    rcases List.mem_singleton.mp he with h
    subst h
    exact ⟨rfl, rfl⟩
  · intro spec hspec hcur
    have heq : installOne src st ⟨id, ""⟩ false =
        ⟨.ok (), st, [Event.getInstalledManifest id, Event.getSpec id]⟩ := by
      simp only [installOne, hid, if_neg, if_false, hgim, hspec]
      simp only [installResolved, hcur, hv, if_pos rfl, MResult.withTrace]
      simp
    refine ⟨heq, ?_⟩
    rw [heq]
    intro e he
    rcases List.mem_cons.mp he with h | h
    · subst h; rfl
    · rcases List.mem_singleton.mp h with h1
      subst h1; rfl

/-- Closed instance of C2: foo installed at 2.0, installing foo@2.0
explicitly and foo@latest are both no-ops. -/
theorem install_same_version_noop_witness :
    ("2.0" ≠ "" →
      installOne srcFoo stFooV2 ⟨"foo", "2.0"⟩ false =
        ⟨.ok (), stFooV2, [Event.getInstalledManifest "foo"]⟩ ∧
      ∀ e ∈ (installOne srcFoo stFooV2 ⟨"foo", "2.0"⟩ false).tr,
        e.isSourceQuery = false ∧ e.isLocalMutation = false) ∧
    (∀ spec, srcFoo.getSpec "foo" = some spec → spec.currentVersion = "2.0" →
      installOne srcFoo stFooV2 ⟨"foo", ""⟩ false =
        ⟨.ok (), stFooV2, [Event.getInstalledManifest "foo", Event.getSpec "foo"]⟩ ∧
      ∀ e ∈ (installOne srcFoo stFooV2 ⟨"foo", ""⟩ false).tr, e.isLocalMutation = false) :=
  install_same_version_noop srcFoo stFooV2 "foo" "2.0" fooV2
    (by decide) (by decide) (by decide)

/-- C3: with an empty requested version, install resolves the version via
the source's `GetSpec` at call time — its outcome and resulting store are
those of installing the source's `currentVersion` explicitly, the only
difference being the extra `GetSpec` query after the installed-manifest
read; if the source has no catalog entry for the id, install fails with the
not-found error and performs no change to the local store. -/
theorem install_resolution
    (src : SourceRepo) (st : LocalState) (id : String) (u : Bool)
    (hid : id ≠ "") :
    (∀ spec, src.getSpec id = some spec → spec.currentVersion ≠ "" →
      ∃ t, (installOne src st ⟨id, ""⟩ u).res =
            (installOne src st ⟨id, spec.currentVersion⟩ u).res ∧
        (installOne src st ⟨id, ""⟩ u).st = (installOne src st ⟨id, spec.currentVersion⟩ u).st ∧
        (installOne src st ⟨id, ""⟩ u).tr =
          [Event.getInstalledManifest id, Event.getSpec id] ++ t ∧
        (installOne src st ⟨id, spec.currentVersion⟩ u).tr =
          [Event.getInstalledManifest id] ++ t) ∧
    (src.getSpec id = none →
      installOne src st ⟨id, ""⟩ u =
        ⟨.error .specNotFound, st, [Event.getInstalledManifest id, Event.getSpec id]⟩) := by
  constructor
  · intro spec hspec hcur
    refine ⟨(installResolved src st id spec.currentVersion (st.getInstalledManifest id) u).tr,
      ?_, ?_, ?_, ?_⟩ <;>
      simp [installOne, hid, hcur, hspec, MResult.withTrace]
  · intro hspec
    simp [installOne, hid, hspec]

/-- Closed instance of C3: resolving foo@latest against the catalog, and a
not-found failure for an id the catalog lacks. -/
theorem install_resolution_witness :
    (∃ t, (installOne srcFoo stEmpty ⟨"foo", ""⟩ false).res =
          (installOne srcFoo stEmpty ⟨"foo", "2.0"⟩ false).res ∧
      (installOne srcFoo stEmpty ⟨"foo", ""⟩ false).st =
        (installOne srcFoo stEmpty ⟨"foo", "2.0"⟩ false).st ∧
      (installOne srcFoo stEmpty ⟨"foo", ""⟩ false).tr =
        [Event.getInstalledManifest "foo", Event.getSpec "foo"] ++ t ∧
      (installOne srcFoo stEmpty ⟨"foo", "2.0"⟩ false).tr =
        [Event.getInstalledManifest "foo"] ++ t) ∧
    installOne srcFoo stEmpty ⟨"bar", ""⟩ false =
      ⟨.error .specNotFound, stEmpty, [Event.getInstalledManifest "bar", Event.getSpec "bar"]⟩ :=
  ⟨(install_resolution srcFoo stEmpty "foo" false (by decide)).1 fooSpec (by decide) (by decide),
   (install_resolution srcFoo stEmpty "bar" false (by decide)).2 (by decide)⟩

/-- C5: uninstalling an installed package removes exactly the files its
manifest lists plus the manifest itself — files for the same id outside the
list and everything under other ids are untouched; uninstalling an id with
no installed manifest is a no-op success, not an error. -/
theorem uninstall_exactness (st : LocalState) (id : String) :
    (∀ m, alookup id st.manifests = some m → m.files.Nodup →
      (∀ f ∈ m.files, (alookup (id, f) st.files).isSome) →
      ∃ st', uninstallAll st [id] = ⟨.ok (), st', [Event.delete id]⟩ ∧
        alookup id st'.manifests = none ∧
        (∀ i, i ≠ id → alookup i st'.manifests = alookup i st.manifests) ∧
        (∀ f, alookup (id, f) st'.files =
          if f ∈ m.files then none else alookup (id, f) st.files) ∧
        (∀ i f, i ≠ id → alookup (i, f) st'.files = alookup (i, f) st.files)) ∧
    (alookup id st.manifests = none →
      uninstallAll st [id] = ⟨.ok (), st, [Event.delete id]⟩) := by
  constructor
  · intro m hm hnd hall
    obtain ⟨st', hdel, hid0, hother, hfiles⟩ := delete_ok st id m hm hnd hall
    refine ⟨st', ?_, hid0, hother, ?_, ?_⟩
    · simp [uninstallAll, uninstallOne, hdel, MResult.withTrace]
    · intro f
      rw [hfiles id f]
      by_cases h : f ∈ m.files <;> simp [h]
    · intro i f hi
      rw [hfiles i f]
      simp [hi]
  · intro hm
    simp [uninstallAll, uninstallOne, delete_noop st id hm, MResult.withTrace]

/-- Closed instance of C5: uninstalling installed foo, and uninstalling an
id with nothing installed. -/
theorem uninstall_exactness_witness :
    (∃ st', uninstallAll stFoo ["foo"] = ⟨.ok (), st', [Event.delete "foo"]⟩ ∧
      alookup "foo" st'.manifests = none ∧
      (∀ i, i ≠ "foo" → alookup i st'.manifests = alookup i stFoo.manifests) ∧
      (∀ f, alookup ("foo", f) st'.files =
        if f ∈ fooV1.files then none else alookup ("foo", f) stFoo.files) ∧
      (∀ i f, i ≠ "foo" → alookup (i, f) st'.files = alookup (i, f) stFoo.files)) ∧
    uninstallAll stEmpty ["bar"] = ⟨.ok (), stEmpty, [Event.delete "bar"]⟩ :=
  ⟨(uninstall_exactness stFoo "foo").1 fooV1 (by decide) (by decide) (by decide),
   (uninstall_exactness stEmpty "bar").2 (by decide)⟩

theorem withTrace_withTrace (tr₁ tr₂ : List Event) (r : MResult) :
    MResult.withTrace tr₁ (MResult.withTrace tr₂ r) = MResult.withTrace (tr₁ ++ tr₂) r := by
  simp [MResult.withTrace]

/-- `Manager.Install` is compositional over batch concatenation: after a
successful first batch, the remaining specs run from the resulting store. -/
theorem installAll_append_ok (src : SourceRepo) (rest : List InstallSpec) :
    ∀ (pre : List InstallSpec) (st st₁ : LocalState) (tr₁ : List Event),
      installAll src st pre = ⟨.ok (), st₁, tr₁⟩ →
      installAll src st (pre ++ rest) = MResult.withTrace tr₁ (installAll src st₁ rest) := by
  intro pre
  induction pre with
  | nil =>
    intro st st₁ tr₁ h
    simp only [installAll, MResult.mk.injEq] at h
    obtain ⟨-, h2, h3⟩ := h
    subst h2
    subst h3
    simp [installAll, MResult.withTrace]
  | cons s pre' ih =>
    intro st st₁ tr₁ h
    rcases hs : installOne src st s false with ⟨res, st', tr⟩
    cases res with
    | error e => simp [installAll, hs] at h
    | ok _ =>
      simp only [installAll, hs] at h
      rcases h2 : installAll src st' pre' with ⟨res2, st2, tr2⟩
      rw [h2] at h
      simp only [MResult.withTrace, MResult.mk.injEq] at h
      obtain ⟨hres, hst, htr⟩ := h
      cases res2 with
      | error e2 => exact absurd hres (by simp)
      | ok _ =>
        subst hst
        simp only [List.cons_append, installAll, hs]
        rw [List.append_eq, ih st' st2 tr2 (by rw [h2]), withTrace_withTrace, htr]

/-- C6: `Install` processes its specs strictly in order — when the specs
completed so far left the store at `st₁` and the next spec fails there, the
whole batch returns that failure wrapped with the failing spec's id and
requested version, the store stays as the failing spec left it (earlier
specs are not rolled back), the trace contains nothing for the later specs;
and a success of the batch implies its first spec succeeded. -/
theorem install_batch_abort (src : SourceRepo) (st : LocalState) :
    (∀ (pre : List InstallSpec) (s : InstallSpec) (rest : List InstallSpec)
        (st₁ st₂ : LocalState) (tr₁ tr₂ : List Event) (e : PakError),
      installAll src st pre = ⟨.ok (), st₁, tr₁⟩ →
      installOne src st₁ s false = ⟨.error e, st₂, tr₂⟩ →
      installAll src st (pre ++ s :: rest) =
        ⟨.error (.installingPak s.id s.version e), st₂, tr₁ ++ tr₂⟩) ∧
    (∀ (s : InstallSpec) (rest : List InstallSpec),
      (installAll src st (s :: rest)).res = .ok () →
      (installOne src st s false).res = .ok ()) := by
  constructor
  · intro pre s rest st₁ st₂ tr₁ tr₂ e hpre hfail
    rw [installAll_append_ok src (s :: rest) pre st st₁ tr₁ hpre]
    simp [installAll, hfail, MResult.withTrace]
  · intro s rest hok
    rcases h : installOne src st s false with ⟨res, st', tr⟩
    cases res with
    | error e => simp [installAll, h] at hok
    | ok _ => rfl

/-- Closed instance of C6: after a successful install of foo@latest, a
batch whose second spec is the unknown package "bar" aborts with an error
naming bar and its requested (empty) version, keeps foo installed, and
never touches the third spec. -/
theorem install_batch_abort_witness :
    installAll srcFoo stEmpty [⟨"foo", ""⟩, ⟨"bar", ""⟩, ⟨"foo", "1.0"⟩] =
      ⟨.error (.installingPak "bar" "" .specNotFound), stFooV2,
        [Event.getInstalledManifest "foo", Event.getSpec "foo",
         Event.getManifest "foo" "2.0", Event.getFile "foo" "2.0" "b.txt",
         Event.write "foo" "2.0" "b.txt", Event.writeManifest "foo"] ++
        [Event.getInstalledManifest "bar", Event.getSpec "bar"]⟩ ∧
    (installAll srcFoo stEmpty [⟨"foo", ""⟩]).res = .ok () :=
  ⟨(install_batch_abort srcFoo stEmpty).1 [⟨"foo", ""⟩] ⟨"bar", ""⟩ [⟨"foo", "1.0"⟩]
      stFooV2 stFooV2
      [Event.getInstalledManifest "foo", Event.getSpec "foo",
       Event.getManifest "foo" "2.0", Event.getFile "foo" "2.0" "b.txt",
       Event.write "foo" "2.0" "b.txt", Event.writeManifest "foo"]
      [Event.getInstalledManifest "bar", Event.getSpec "bar"]
      .specNotFound (by decide) (by decide),
   by decide⟩

/-- When every installed id has a catalog entry, the `Upgradable` loop
completes and computes the mismatch filter over the installed list. -/
theorem upgradableLoop_ok (src : SourceRepo) :
    ∀ l : List Manifest, (∀ m ∈ l, (src.getSpec m.id).isSome) →
      upgradableLoop src l = .ok (l.filterMap fun m =>
        match src.getSpec m.id with
        | some spec =>
          if spec.currentVersion = m.version then none else some (mkUpgradable m spec)
        | none => none) := by
  intro l
  induction l with
  | nil => intro _; simp [upgradableLoop]
  | cons m rest ih =>
    intro h
    obtain ⟨spec, hspec⟩ := Option.isSome_iff_exists.mp (h m (by simp))
    have htail := ih fun m' hm' => h m' (by simp [hm'])
    by_cases hv : spec.currentVersion = m.version <;>
      simp [upgradableLoop, hspec, htail, List.filterMap_cons, hv]

/-- C7: when every installed id is in the source catalog, `Upgradable`
returns, in `ListInstalled` order, exactly one entry per installed manifest
whose version differs from the source's `currentVersion` — the entry
combines the installed id, version and date with the source's latest
version and updated timestamp (`mkUpgradable`) — and omits the manifests
whose versions match. -/
theorem upgradable_detection (src : SourceRepo) (st : LocalState)
    (h : ∀ m ∈ listInstalled st, (src.getSpec m.id).isSome) :
    upgradable src st = .ok ((listInstalled st).filterMap fun m =>
      match src.getSpec m.id with
      | some spec =>
        if spec.currentVersion = m.version then none else some (mkUpgradable m spec)
      | none => none) :=
  upgradableLoop_ok src (listInstalled st) h

/-- Closed instance of C7: with foo installed at 1.0 and the source current
at 2.0, `Upgradable` lists exactly the foo entry. -/
theorem upgradable_detection_witness :
    upgradable srcFoo stFoo = .ok ((listInstalled stFoo).filterMap fun m =>
      match srcFoo.getSpec m.id with
      | some spec =>
        if spec.currentVersion = m.version then none else some (mkUpgradable m spec)
      | none => none) :=
  upgradable_detection srcFoo stFoo (by decide)

/-- C10: `Upgradable` silently assumes every installed id has a source
catalog entry — under that hypothesis the nil result of `GetSpec` is never
dereferenced and the operation completes totally; with an installed id
absent from the catalog, the dereference of the nil spec (a Go panic,
modelled as `nilDereference`) is reachable at the public interface. -/
theorem upgradable_nil_spec_precondition (src : SourceRepo) (st : LocalState) :
    ((∀ m ∈ listInstalled st, (src.getSpec m.id).isSome) →
      ∃ l, upgradable src st = .ok l) ∧
    upgradable srcFoo stGone = .error .nilDereference := by
  constructor
  · intro h
    exact ⟨_, upgradableLoop_ok src (listInstalled st) h⟩
  · rfl

/-- Closed instance of C10: the catalog hypothesis holds for `stFoo`, so
`Upgradable` completes there; it panics on the store holding "gone". -/
theorem upgradable_nil_spec_precondition_witness :
    (∃ l, upgradable srcFoo stFoo = .ok l) ∧
    upgradable srcFoo stGone = .error .nilDereference :=
  ⟨(upgradable_nil_spec_precondition srcFoo stFoo).1 (by decide),
   (upgradable_nil_spec_precondition srcFoo stFoo).2⟩

/-- C4 (refuted — code bug): the upgrade flag is not outcome-neutral. For
the spec `{id := "foo", version := ""}` on an empty local store, with "foo"
in the source catalog, the flag-set run hits the logging line
`Upgrading %s from %s to %s` which dereferences the nil `existing`
manifest and panics, while the flag-clear run performs a normal fresh
install; the two runs therefore differ in both outcome and store. -/
theorem upgrade_flag_changes_outcome :
    (installOne srcFoo stEmpty ⟨"foo", ""⟩ true).res = .error .nilDereference ∧
    (installOne srcFoo stEmpty ⟨"foo", ""⟩ false).res = .ok () ∧
    (installOne srcFoo stEmpty ⟨"foo", ""⟩ true).st ≠
      (installOne srcFoo stEmpty ⟨"foo", ""⟩ false).st := by
  refine ⟨rfl, rfl, ?_⟩
  decide

/-- C8: the single-slot TTL cache of `http.Repository.getIndex` — an
expired snapshot is dropped and a fetch happens; a snapshot within the TTL
is served with no fetch and no state change; with no valid snapshot a
successful fetch is stored together with the current time and served; a
failed fetch is returned, stores nothing, and any read on an empty cache
fetches again (no negative caching). -/
theorem cache_ttl_behaviour (ttl now : Nat) (st : CacheState)
    (fetch : Except String (List (String × Spec))) :
    (∀ idx idx', st.cachedIndex = some idx → now - st.cacheTime > ttl →
      fetch = .ok idx' →
      getIndex ttl fetch now st = (.ok idx', ⟨some idx', now⟩, true)) ∧
    (∀ idx e, st.cachedIndex = some idx → now - st.cacheTime > ttl →
      fetch = .error e →
      getIndex ttl fetch now st = (.error e, ⟨none, st.cacheTime⟩, true)) ∧
    (∀ idx, st.cachedIndex = some idx → ¬now - st.cacheTime > ttl →
      getIndex ttl fetch now st = (.ok idx, st, false)) ∧
    (∀ idx', st.cachedIndex = none → fetch = .ok idx' →
      getIndex ttl fetch now st = (.ok idx', ⟨some idx', now⟩, true)) ∧
    (∀ e, st.cachedIndex = none → fetch = .error e →
      getIndex ttl fetch now st = (.error e, st, true)) ∧
    (∀ st' : CacheState, st'.cachedIndex = none →
      ∀ (f : Except String (List (String × Spec))) (n : Nat),
        (getIndex ttl f n st').2.2 = true) := by
  refine ⟨?_, ?_, ?_, ?_, ?_, ?_⟩
  · intro idx idx' hc hexp hf
    simp [getIndex, checkCacheExpired, hc, hexp, hf]
  · intro idx e hc hexp hf
    simp [getIndex, checkCacheExpired, hc, hexp, hf]
  · intro idx hc hexp
    simp [getIndex, checkCacheExpired, hc, hexp]
  · intro idx' hc hf
    simp [getIndex, checkCacheExpired, hc, hf]
  · intro e hc hf
    simp [getIndex, checkCacheExpired, hc, hf]
  · intro st' hc f n
    rcases f with e | idx <;> simp [getIndex, checkCacheExpired, hc]

/-- Closed instance of C8: an expired snapshot is replaced by the fetch
result; a fresh snapshot is served without fetching; a failed fetch on an
empty cache stores nothing. -/
theorem cache_ttl_behaviour_witness :
    getIndex 10 (.ok [("a", fooSpec)]) 20 ⟨some [("b", fooSpec)], 5⟩ =
      (.ok [("a", fooSpec)], ⟨some [("a", fooSpec)], 20⟩, true) ∧
    getIndex 10 (.ok [("a", fooSpec)]) 14 ⟨some [("b", fooSpec)], 5⟩ =
      (.ok [("b", fooSpec)], ⟨some [("b", fooSpec)], 5⟩, false) ∧
    getIndex 10 (.error "down") 20 ⟨none, 0⟩ = (.error "down", ⟨none, 0⟩, true) :=
  ⟨(cache_ttl_behaviour 10 20 ⟨some [("b", fooSpec)], 5⟩ (.ok [("a", fooSpec)])).1
      [("b", fooSpec)] [("a", fooSpec)] rfl (by decide) rfl,
   (cache_ttl_behaviour 10 14 ⟨some [("b", fooSpec)], 5⟩ (.ok [("a", fooSpec)])).2.2.1
      [("b", fooSpec)] rfl (by decide),
   (cache_ttl_behaviour 10 20 ⟨none, 0⟩ (.error "down")).2.2.2.2.1 "down" rfl rfl⟩

/-! ## Order facts for the CLI comparator -/

theorem charListLt_asymm :
    ∀ as bs : List Char, charListLt as bs = true → charListLt bs as = false := by
  intro as
  induction as with
  | nil =>
    intro bs h
    cases bs with
    | nil => simp [charListLt] at h
    | cons b bs' => simp [charListLt]
  | cons a as' ih =>
    intro bs h
    cases bs with
    | nil => simp [charListLt] at h
    | cons b bs' =>
      simp only [charListLt] at h ⊢
      by_cases hab : a < b
      · have hba : ¬b < a := lt_asymm hab
        simp [hab, hba]
      · by_cases hba : b < a
        · simp [hab, hba] at h
        · simp only [hab, hba, if_false] at h
          simp [hab, hba, ih bs' h]

theorem charListLt_trans :
    ∀ as bs cs : List Char,
      charListLt as bs = true → charListLt bs cs = true → charListLt as cs = true := by
  intro as
  induction as with
  | nil =>
    intro bs cs h1 h2
    cases bs with
    | nil => simp [charListLt] at h1
    | cons b bs' =>
      cases cs with
      | nil => simp [charListLt] at h2
      | cons c cs' => simp [charListLt]
  | cons a as' ih =>
    intro bs cs h1 h2
    cases bs with
    | nil => simp [charListLt] at h1
    | cons b bs' =>
      cases cs with
      | nil => simp [charListLt] at h2
      | cons c cs' =>
        simp only [charListLt] at h1 h2 ⊢
        by_cases hab : a < b
        · by_cases hbc : b < c
          · simp [lt_trans hab hbc]
          · by_cases hcb : c < b
            · simp [hbc, hcb] at h2
            · have hbc' : b = c := le_antisymm (not_lt.mp hcb) (not_lt.mp hbc)
              subst hbc'
              simp [hab]
        · by_cases hba : b < a
          · simp [hab, hba] at h1
          · have hab' : a = b := le_antisymm (not_lt.mp hba) (not_lt.mp hab)
            subst hab'
            simp only [hab, if_false, lt_irrefl] at h1
            by_cases hac : a < c
            · simp [hac]
            · by_cases hca : c < a
              · simp [hac, hca] at h2
              · have hac' : a = c := le_antisymm (not_lt.mp hca) (not_lt.mp hac)
                subst hac'
                simp only [lt_irrefl, if_false] at h2 ⊢
                exact ih bs' cs' h1 h2

theorem goLess_asymm (a b : String) (h : goLess a b = true) : goLess b a = false := by
  simp only [goLess] at h ⊢
  by_cases he : lowerStr a = lowerStr b
  · simp only [he, if_pos rfl] at h
    simp [he.symm, charListLt_asymm _ _ h]
  · have he' : ¬lowerStr b = lowerStr a := fun hh => he hh.symm
    simp only [he, if_false] at h
    simp [he', charListLt_asymm _ _ h]

theorem lowerStr_eq_of_data_eq {a b : String}
    (h : (lowerStr a).data = (lowerStr b).data) : lowerStr a = lowerStr b := by
  cases hsa : lowerStr a with
  | mk la =>
    cases hsb : lowerStr b with
    | mk lb =>
      rw [hsa, hsb] at h
      simp at h
      rw [h]

theorem goLess_trans (a b c : String) (h1 : goLess a b = true) (h2 : goLess b c = true) :
    goLess a c = true := by
  simp only [goLess] at h1 h2 ⊢
  by_cases hab : lowerStr a = lowerStr b
  · by_cases hbc : lowerStr b = lowerStr c
    · have hac : lowerStr a = lowerStr c := hab.trans hbc
      simp only [hab, hbc, hac, if_pos rfl] at h1 h2 ⊢
      exact charListLt_trans _ _ _ h1 h2
    · have hac : ¬lowerStr a = lowerStr c := fun hh => hbc (hab.symm.trans hh)
      simp only [hbc, hac, if_false] at h2 ⊢
      rw [hab]
      exact h2
  · by_cases hbc : lowerStr b = lowerStr c
    · have hac : ¬lowerStr a = lowerStr c := fun hh => hab (hh.trans hbc.symm)
      simp only [hab, hac, if_false] at h1 ⊢
      rw [← hbc]
      exact h1
    · simp only [hab, hbc, if_false] at h1 h2
      have hlt := charListLt_trans _ _ _ h1 h2
      have hac : ¬lowerStr a = lowerStr c := by
        intro hh
        have : (lowerStr a).data = (lowerStr c).data := congrArg String.data hh
        rw [this] at h1
        have := charListLt_asymm _ _ h2
        rw [this] at h1
        exact Bool.noConfusion h1
      simp [hac, hlt]

theorem mem_insertSorted (x y : String) :
    ∀ l : List String, y ∈ insertSorted x l ↔ y = x ∨ y ∈ l := by
  intro l
  induction l with
  | nil => simp [insertSorted]
  | cons z zs ih =>
    simp only [insertSorted]
    cases hgl : goLess x z with
    | true => simp [List.mem_cons]
    | false =>
      simp only [Bool.false_eq_true, if_false, List.mem_cons, ih]
      tauto

theorem insertSorted_perm (x : String) :
    ∀ l : List String, (insertSorted x l).Perm (x :: l) := by
  intro l
  induction l with
  | nil => simp [insertSorted]
  | cons z zs ih =>
    simp only [insertSorted]
    cases hgl : goLess x z with
    | true => simp
    | false =>
      simp only [Bool.false_eq_true, if_false]
      exact (ih.cons z).trans (List.Perm.swap x z zs)

theorem insertSorted_pairwise (x : String) :
    ∀ l : List String, l.Pairwise (fun a b => goLess b a = false) →
      (insertSorted x l).Pairwise (fun a b => goLess b a = false) := by
  intro l
  induction l with
  | nil => intro _; simp [insertSorted]
  | cons z zs ih =>
    intro hp
    obtain ⟨hz, hzs⟩ := List.pairwise_cons.mp hp
    simp only [insertSorted]
    cases hgl : goLess x z with
    | true =>
      rw [if_pos rfl]
      refine List.pairwise_cons.mpr ⟨?_, hp⟩
      intro y hy
      rcases List.mem_cons.mp hy with h1 | h1
      · rw [h1]
        exact goLess_asymm x z hgl
      · cases hgz : goLess y x with
        | false => rfl
        | true => exact absurd (goLess_trans y x z hgz hgl) (by simp [hz y h1])
    | false =>
      simp only [Bool.false_eq_true, if_false]
      refine List.pairwise_cons.mpr ⟨?_, ih hzs⟩
      intro y hy
      rcases (mem_insertSorted x y zs).mp hy with h1 | h1
      · subst h1
        exact hgl
      · exact hz y h1

theorem sortedKeys_perm (keys : List String) : (sortedKeys keys).Perm keys := by
  induction keys with
  | nil => simp [sortedKeys]
  | cons k ks ih =>
    simp only [sortedKeys, List.foldr_cons]
    exact (insertSorted_perm k _).trans (ih.cons k)

theorem sortedKeys_pairwise (keys : List String) :
    (sortedKeys keys).Pairwise (fun a b => goLess b a = false) := by
  induction keys with
  | nil => simp [sortedKeys]
  | cons k ks ih =>
    simp only [sortedKeys, List.foldr_cons]
    exact insertSorted_pairwise k _ ih

/-- C9: the presentation-level key order is the `sortedKeys` comparator —
case-insensitive lexicographic with exact case-insensitive ties broken by
byte order — so the result is a permutation of the keys in which no later
key compares strictly below an earlier one, and
`["Widget", "apple", "Apple"]` sorts to `["Apple", "apple", "Widget"]`;
search selects from that same sorted order exactly the keys containing the
query as a case-insensitive substring, so "wid" matches only "Widget". -/
theorem sort_search_determinism (keys : List String) (q : String) :
    (sortedKeys keys).Perm keys ∧
    (sortedKeys keys).Pairwise (fun a b => goLess b a = false) ∧
    (∀ k, k ∈ searchKeys q keys ↔ k ∈ sortedKeys keys ∧ containsFold k q = true) ∧
    (searchKeys q keys).Sublist (sortedKeys keys) ∧
    sortedKeys ["Widget", "apple", "Apple"] = ["Apple", "apple", "Widget"] ∧
    searchKeys "wid" ["Widget", "apple", "Apple"] = ["Widget"] := by
  refine ⟨sortedKeys_perm keys, sortedKeys_pairwise keys, ?_, ?_, ?_, ?_⟩
  · intro k
    simp [searchKeys, List.mem_filter]
  · exact List.filter_sublist _
  · decide
  · decide

end Pakman
